import Mathlib

/-!
# Verification model of `rdu` (recursive disk usage)

Shallow embedding of `src/lib.rs`. Filesystem state is modelled as an
inductive snapshot tree (`Entry`). Process aborts (Rust `panic!` /
`unwrap` on `Err`) are modelled as `Option.none`; recoverable `Result`
values as `Except String`. `u64` arithmetic of the source is modelled on
`Nat` with explicit reduction modulo `U64 = 2^64` at each addition, as
in release-mode Rust. The `u16` depth counter is modelled as `Nat`: the
OS bounds path nesting far below `2^16`, so depth overflow cannot occur.
-/

/-- Modulus `2^64` of Rust `u64` arithmetic. -/
def U64 : Nat := 2 ^ 64

/-- A snapshot of one filesystem node, as the traversal observes it.

* `file path size`  — regular file whose `fs::metadata` call succeeds
  with `len() = size` (a `u64`, hence `< U64`);
* `fileBadMeta path` — regular file (`is_file()` holds) whose
  `fs::metadata` call fails, which the source turns into `panic!`;
* `dir path children` — directory whose `fs::read_dir` succeeds,
  listing `children`;
* `badDir path` — directory (`is_dir()` holds) whose `fs::read_dir`
  fails (e.g. permission denied on readdir), which the source `unwrap`s
  into a panic;
* `other path` — a path that is neither a directory nor a regular file
  (dead path, socket, broken symlink, ...). -/
inductive Entry where
  | file (path : String) (size : Nat)
  | fileBadMeta (path : String)
  | dir (path : String) (children : List Entry)
  | badDir (path : String)
  | other (path : String)

/-- Models `Path::is_dir` on the snapshot. -/
def Entry.isDir : Entry → Bool
  | .dir _ _ => true
  | .badDir _ => true
  | _ => false

/-- Models `Path::is_file` on the snapshot. -/
def Entry.isFile : Entry → Bool
  | .file _ _ => true
  | .fileBadMeta _ => true
  | _ => false

/-- The path component carried by an `Entry`. -/
def Entry.pathOf : Entry → String
  | .file p _ => p
  | .fileBadMeta p => p
  | .dir p _ => p
  | .badDir p => p
  | .other p => p

/-- Record type `PathSizeMetadata` of the source
(`size: u64`, `depth: u16`). -/
structure PathSizeMetadata where
  path : String
  size : Nat
  depth : Nat
deriving Repr, DecidableEq

/-- Enum `Depth` of the source: `None` or `Depth(u16)`. -/
inductive Depth where
  | none
  | depth (d : Nat)
deriving Repr, DecidableEq

/-- The value both `match` expressions of the source extract from a
`Depth` (`None => 0, Depth(d) => d`). -/
def Depth.val : Depth → Nat
  | .none => 0
  | .depth d => d

/-- Source `read_dir_contents`: `Err` if the path is not a directory, the list
of children on success; `fs::read_dir(dir_path).unwrap()` panics
(`none`) when readdir fails on an actual directory. -/
def read_dir_contents (e : Entry) : Option (Except String (List Entry)) :=
  match e with
  | .dir _ ch => some (.ok ch)
  | .badDir _ => none
  | _ => some (.error "Provided path is not a directory")

/-- Source `get_file_size`: `Err` when the path fails `is_file()`; on a file,
a record carrying the metadata length and the caller's depth; `panic!`
(`none`) when metadata retrieval fails on an actual file. -/
def get_file_size (e : Entry) (depth : Depth) :
    Option (Except String PathSizeMetadata) :=
  match e with
  | .file p n => some (.ok ⟨p, n, depth.val⟩)
  | .fileBadMeta _ => none
  | _ => some (.error "Get file size provided with a non-file path")

mutual

/-- Source `get_dir_data`: `Err` for a non-directory; otherwise list the
children via `read_dir_contents(..).unwrap()` — the match below inlines
that call so termination is structural: on `dir` it yields the children,
on `badDir` the panic inside `read_dir_contents` aborts (`none`) — then
walk them accumulating records and a wrapping `u64` sum, and append the
directory's own record. -/
def get_dir_data (e : Entry) (depth : Depth) :
    Option (Except String (List PathSizeMetadata × Nat)) :=
  match e with
  | .dir p ch =>
    match walk_paths ch depth.val with
    | .none => none
    | .some (metadata, size) =>
      some (.ok (metadata ++ [⟨p, size, depth.val⟩], size))
  | .badDir _ => none
  | _ => some (.error "Provided path is not a directory")

/-- The `for path in paths` loop of `get_dir_data`, at current depth
`cur`: directories recurse at `cur + 1`, files go through
`get_file_size` at `cur + 1`, `Err` results are silently skipped,
panics propagate. The source accumulates `size` left-to-right with
wrapping `u64` addition; since `(x + y) % U64` is associative modulo
`U64`, the right-nested accumulation below computes the same value. -/
def walk_paths (paths : List Entry) (cur : Nat) :
    Option (List PathSizeMetadata × Nat) :=
  match paths with
  | [] => some ([], 0)
  | p :: rest =>
    if p.isDir then
      match get_dir_data p (.depth (cur + 1)) with
      | .none => none
      | .some (.error _) =>
        walk_paths rest cur
      | .some (.ok (md, s)) =>
        match walk_paths rest cur with
        | .none => none
        | .some (mdr, sr) => some (md ++ mdr, (s + sr) % U64)
    else
      match get_file_size p (.depth (cur + 1)) with
      | .none => none
      | .some (.error _) =>
        walk_paths rest cur
      | .some (.ok r) =>
        match walk_paths rest cur with
        | .none => none
        | .some (mdr, sr) => some (r :: mdr, (r.size + sr) % U64)

end

/-- Source `get_disk_usage`: on a directory, the full walk filtered to
`depth <= depth`; on anything else, the single `get_file_size` record.
Either `unwrap` turns an `Err` into a panic (`none`). -/
def get_disk_usage (e : Entry) (depth : Nat) :
    Option (List PathSizeMetadata) :=
  if e.isDir then
    match get_dir_data e .none with
    | .none => none
    | .some (.error _) => none
    | .some (.ok (v, _)) => some (v.filter (fun r => r.depth ≤ depth))
  else
    match get_file_size e (.depth 0) with
    | .none => none
    | .some (.error _) => none
    | .some (.ok r) => some [r]

/-- Wrapping `u64` summation: the running total of the source's
`size += ...` loop, each addition reduced modulo `U64`. The source folds
left-to-right; as `((a % U64) + b) % U64 = (a + b) % U64`, the
right-nested fold below yields the same value. -/
def wsum : List Nat → Nat
  | [] => 0
  | a :: rest => (a + wsum rest) % U64

/-- Source `DigitCount for u64`: `1` for `n < 2`, else
`(n as f64).log(10_f64).ceil() as usize`. The floating-point expression
is modelled by its exact-real value `⌈log₁₀ n⌉`, which on `Nat` is
`Nat.log 10 (n - 1) + 1` for `n ≥ 2`; the `f64` computation returns
exactly this for all `n < 10^15` (in particular `⌈log₁₀ 10^k⌉ = k`,
one less than the digit count of `10^k`). -/
def get_num_digits (n : Nat) : Nat :=
  if n < 2 then 1 else Nat.log 10 (n - 1) + 1

/-- Rust `{:<width$}` formatting of a value shorter than `width`:
left-aligned, padded with spaces on the right (never truncates). -/
def pad_right (s : String) (w : Nat) : String :=
  s ++ String.mk (List.replicate (w - s.length) ' ')

/-- Source `print_bytes`: panics (`none`) on an empty record set
(`max_by_key(..).unwrap()`); otherwise takes `max`, the largest `size`
in the set (`max_by_key` modelled by a `max` fold, equal in value), and
renders each record as `{:<max_digits$}  {path}`. The emitted lines are
returned instead of written to stdout. -/
def print_bytes (data : List PathSizeMetadata) : Option (List String) :=
  match data with
  | [] => none
  | _ =>
    let mx := (data.map (fun r => r.size)).foldl max 0
    let maxDigits := get_num_digits mx
    some (data.map (fun r => pad_right (toString r.size) maxDigits ++ "  " ++ r.path))

/-- Decimal digit count of a `Nat`, counting `0` as one digit
(`Nat.log 10 n + 1`). Used only to state the claim's reading of the
raw-bytes width. -/
def digit_count (n : Nat) : Nat := Nat.log 10 n + 1

/-- Right-aligned padding (spaces on the left), the claim's reading of
the raw-bytes alignment. -/
def pad_left (s : String) (w : Nat) : String :=
  String.mk (List.replicate (w - s.length) ' ') ++ s

/-- Modelled from the claim's words, for comparison with `print_bytes`:
each record rendered as its byte count left-padded (right-aligned) to a
width equal to the decimal digit count of the largest size in the set,
followed by two spaces and the path. -/
def claimed_print_bytes (data : List PathSizeMetadata) : Option (List String) :=
  match data with
  | [] => none
  | _ =>
    let mx := (data.map (fun r => r.size)).foldl max 0
    let w := digit_count mx
    some (data.map (fun r => pad_left (toString r.size) w ++ "  " ++ r.path))

/-- Iteration count of the source's `while size >= 1024` loop in
`print_readable`. The source divides an `f64`; division by `1024 = 2^10`
is exact in `f64`, and the count only depends on magnitude, so the
`Nat` floor-division loop below computes the same count. -/
def trunc_count (n : Nat) : Nat :=
  if n < 1024 then 0 else trunc_count (n / 1024) + 1
decreasing_by exact Nat.div_lt_self (by omega) (by omega)

/-- Rounding to the nearest integer with ties to even, the rounding
Rust `format!("{:.prec}")` applies to the exact value of an `f64`.
Defined for the nonnegative rationals produced by scaling. -/
def round_half_even (q : ℚ) : Nat :=
  let f := (⌊q⌋).toNat
  let frac := q - ⌊q⌋
  if frac < 1 / 2 then f
  else if 1 / 2 < frac then f + 1
  else if f % 2 = 0 then f else f + 1

/-- Source unit lookup `HashMap::from([(0,'B'),(1,'K'),(2,'M'),(3,'G')])`
with `.get(..).unwrap_or(&'?')`. -/
def units_char (k : Nat) : Char :=
  match k with
  | 0 => 'B'
  | 1 => 'K'
  | 2 => 'M'
  | 3 => 'G'
  | _ => '?'

/-- Rust `format!("{:.d}", q)` for `d ∈ {0, 1}`: the value rounded to
`d` decimal places, ties to even. -/
def format_scaled (q : ℚ) (decimals : Nat) : String :=
  if decimals = 1 then
    let m := round_half_even (q * 10)
    toString (m / 10) ++ "." ++ toString (m % 10)
  else toString (round_half_even q)

/-- Numeric-plus-unit portion rendered by `print_readable` for one size:
the size repeatedly divided by 1024 while `≥ 1024` (the scaled value is
exactly `n / 1024 ^ trunc_count n`, since `f64` division by `1024` is
exact for `n < 2^53`), one decimal place iff the scaled value is below
the literal `9.95` (`199/20`), then the unit character. -/
def readable_size_str (n : Nat) : String :=
  let k := trunc_count n
  let scaled : ℚ := (n : ℚ) / 1024 ^ k
  format_scaled scaled (if scaled < 199 / 20 then 1 else 0) ++
    String.singleton (units_char k)

/-- Source `print_readable`: each record rendered as
`{:<4}  {path}` where the first field is `readable_size_str` of its
size. Emitted lines are returned instead of written to stdout. -/
def print_readable (data : List PathSizeMetadata) : List String :=
  data.map (fun r => pad_right (readable_size_str r.size) 4 ++ "  " ++ r.path)

/-- The `if sort { res.sort_by_key(|d| d.size) }` step of
`log_disk_usage`. Rust `sort_by_key` is a stable sort; a stable sort by
a total preorder is unique as a function, so `List.mergeSort` (stable)
models it exactly. -/
def sort_records (res : List PathSizeMetadata) (sort : Bool) :
    List PathSizeMetadata :=
  if sort then res.mergeSort (fun a b => a.size ≤ b.size) else res

/-- Source `log_disk_usage`: walk, filter by depth, optionally sort,
then render with the selected formatter. -/
def log_disk_usage (e : Entry) (depth : Nat)
    (human_readable sort : Bool) : Option (List String) :=
  match get_disk_usage e depth with
  | .none => none
  | .some res =>
    let res := sort_records res sort
    if human_readable then some (print_readable res) else print_bytes res

/-- Invariant of a successful `get_dir_data` call: the records are those
of the subtree followed by the directory's own record, which carries the
returned total and the caller's depth; all subtree records lie strictly
below the caller's depth; and the total is the wrapping `u64` sum of the
sizes of the records at exactly one level below — the records of the
direct children. -/
def GddInv (e : Entry) : Prop :=
  ∀ (dep : Depth) (md : List PathSizeMetadata) (t : Nat),
    get_dir_data e dep = some (.ok (md, t)) →
    ∃ inner, md = inner ++ [⟨e.pathOf, t, dep.val⟩]
      ∧ (∀ r ∈ inner, dep.val + 1 ≤ r.depth)
      ∧ t = wsum ((inner.filter (fun r => r.depth == dep.val + 1)).map
          (fun r => r.size))
      ∧ t < U64

/-! ## Helper lemmas -/

theorem U64_pos : 0 < U64 := by norm_num [U64]

/-- A successful `get_file_size` result carries the entry's path and the
caller's depth. -/
theorem get_file_size_ok (e : Entry) (dep : Depth) (r : PathSizeMetadata)
    (h : get_file_size e dep = some (.ok r)) :
    r.path = e.pathOf ∧ r.depth = dep.val := by
  cases e
  all_goals simp [get_file_size] at h
  all_goals simp [← h, Entry.pathOf]

/-- On a directory, `get_file_size` fails its `is_file` check. -/
theorem get_file_size_of_isDir (e : Entry) (dep : Depth)
    (h : e.isDir = true) :
    get_file_size e dep =
      some (.error "Get file size provided with a non-file path") := by
  cases e <;> simp_all [Entry.isDir, get_file_size]

/-- On a non-directory, `get_dir_data` fails its `is_dir` check. -/
theorem get_dir_data_of_not_isDir (e : Entry) (dep : Depth)
    (h : e.isDir = false) :
    get_dir_data e dep =
      some (.error "Provided path is not a directory") := by
  cases e <;> simp_all [Entry.isDir, get_dir_data]

/-- Only a directory can produce a successful `get_dir_data` result. -/
theorem isDir_of_get_dir_data_ok (e : Entry) (dep : Depth)
    (x : List PathSizeMetadata × Nat)
    (h : get_dir_data e dep = some (.ok x)) : e.isDir = true := by
  cases e <;> simp_all [Entry.isDir, get_dir_data]

/-- Invariant of the child-walking loop, given the `get_dir_data`
invariant for every entry of the list: all produced records lie at depth
`cur + 1` or below, and the returned total is the wrapping sum of the
sizes of the records at exactly `cur + 1` (one per successfully
processed child). -/
theorem walk_inv (l : List Entry) (hA : ∀ c ∈ l, GddInv c) :
    ∀ (cur : Nat) (md : List PathSizeMetadata) (t : Nat),
      walk_paths l cur = some (md, t) →
      (∀ r ∈ md, cur + 1 ≤ r.depth)
      ∧ t = wsum ((md.filter (fun r => r.depth == cur + 1)).map
          (fun r => r.size))
      ∧ t < U64 := by
  induction l with
  | nil =>
    intro cur md t h
    simp only [walk_paths, Option.some.injEq, Prod.mk.injEq] at h
    obtain ⟨h1, h2⟩ := h
    subst h1; subst h2
    exact ⟨by simp, by simp [wsum], U64_pos⟩
  | cons p rest ih =>
    intro cur md t h
    have hrest : ∀ c ∈ rest, GddInv c :=
      fun c hc => hA c (List.mem_cons_of_mem _ hc)
    rw [walk_paths] at h
    by_cases hpd : p.isDir
    · simp only [hpd, if_true] at h
      split at h
      · exact absurd h (by simp)
      · exact ih hrest cur md t h
      · rename_i md₁ s₁ hgd
        split at h
        · exact absurd h (by simp)
        · rename_i mdr sr hw
          simp only [Option.some.injEq, Prod.mk.injEq] at h
          obtain ⟨h1, h2⟩ := h
          subst h1; subst h2
          obtain ⟨inner, hmd₁, hinner, hsum₁, hlt₁⟩ :=
            hA p (List.mem_cons_self p rest) (.depth (cur + 1)) md₁ s₁ hgd
          obtain ⟨ihdep, ihsum, ihlt⟩ := ih hrest cur mdr sr hw
          subst hmd₁
          refine ⟨?_, ?_, Nat.mod_lt _ U64_pos⟩
          · intro r hr
            rcases List.mem_append.mp hr with hr | hr
            · rcases List.mem_append.mp hr with hr | hr
              · exact le_trans (Nat.le_succ _) (hinner r hr)
              · simp only [List.mem_singleton] at hr
                subst hr
                simp [Depth.val]
            · exact ihdep r hr
          · have hne : ∀ r ∈ inner, (r.depth == cur + 1) = false := by
              intro r hr
              have := hinner r hr
              simp only [Depth.val] at this
              simp only [beq_eq_false_iff_ne, ne_eq]
              omega
            rw [List.append_assoc, List.filter_append,
              List.filter_eq_nil_iff.mpr (by intro r hr; simp [hne r hr]),
              List.nil_append, List.filter_append]
            simp only [List.filter_singleton, Depth.val, beq_self_eq_true,
              if_true, List.map_append, List.map_cons, List.map_nil,
              List.singleton_append, List.append_eq, List.nil_append, wsum]
            rw [← ihsum]
    · have hpd' : p.isDir = false := by
        revert hpd; cases p.isDir <;> simp
      simp only [hpd', Bool.false_eq_true, if_false] at h
      split at h
      · exact absurd h (by simp)
      · exact ih hrest cur md t h
      · rename_i r hfs
        split at h
        · exact absurd h (by simp)
        · rename_i mdr sr hw
          simp only [Option.some.injEq, Prod.mk.injEq] at h
          obtain ⟨h1, h2⟩ := h
          subst h1; subst h2
          obtain ⟨hrp, hrd⟩ := get_file_size_ok p _ r hfs
          obtain ⟨ihdep, ihsum, ihlt⟩ := ih hrest cur mdr sr hw
          refine ⟨?_, ?_, Nat.mod_lt _ U64_pos⟩
          · intro r' hr'
            rcases List.mem_cons.mp hr' with hr' | hr'
            · subst hr'; simp [hrd, Depth.val]
            · exact ihdep r' hr'
          · rw [List.filter_cons_of_pos (by simp [hrd, Depth.val])]
            simp only [List.map_cons, wsum]
            rw [← ihsum]

/-- Every entry satisfies the `get_dir_data` invariant, by mutual
structural induction over the entry tree. -/
theorem gdd_inv_all : ∀ e, GddInv e :=
  @Entry.rec GddInv (fun l => ∀ c ∈ l, GddInv c)
    (fun p n => by
      intro dep md t h
      simp [get_dir_data] at h)
    (fun p => by
      intro dep md t h
      simp [get_dir_data] at h)
    (fun p ch ihch => by
      intro dep md t h
      rw [get_dir_data] at h
      split at h
      · exact absurd h (by simp)
      · rename_i mdW s hw
        simp only [Option.some.injEq, Except.ok.injEq, Prod.mk.injEq] at h
        obtain ⟨h1, h2⟩ := h
        subst h2
        refine ⟨mdW, ?_, ?_, ?_, ?_⟩
        · rw [← h1]; simp [Entry.pathOf]
        · exact (walk_inv ch ihch dep.val mdW s hw).1
        · exact (walk_inv ch ihch dep.val mdW s hw).2.1
        · exact (walk_inv ch ihch dep.val mdW s hw).2.2
    )
    (fun p => by
      intro dep md t h
      simp [get_dir_data] at h)
    (fun p => by
      intro dep md t h
      simp [get_dir_data] at h)
    (fun c hc => absurd hc (List.not_mem_nil c))
    (fun head tail ih1 ih2 c hc => by
      rcases List.mem_cons.mp hc with hc | hc
      · exact hc ▸ ih1
      · exact ih2 c hc)

/-- Membership facts for the child-walking loop: every successfully
processed child contributes its records to the loop's output — the full
record block of a directory child, the single record of a file child. -/
theorem walk_children_facts (l : List Entry) :
    ∀ (cur : Nat) (md : List PathSizeMetadata) (t : Nat),
      walk_paths l cur = some (md, t) →
      ∀ c ∈ l,
        (∀ mc tc, get_dir_data c (.depth (cur + 1)) = some (.ok (mc, tc)) →
          mc.Sublist md)
        ∧ (∀ r, get_file_size c (.depth (cur + 1)) = some (.ok r) → r ∈ md) := by
  induction l with
  | nil =>
    intro cur md t h c hc
    exact absurd hc (List.not_mem_nil c)
  | cons p rest ih =>
    intro cur md t h c hc
    rw [walk_paths] at h
    by_cases hpd : p.isDir
    · simp only [hpd, if_true] at h
      split at h
      · exact absurd h (by simp)
      · rename_i a herr
        rcases List.mem_cons.mp hc with hc | hc
        · subst hc
          constructor
          · intro mc tc hmc
            rw [herr] at hmc
            exact absurd hmc (by simp)
          · intro r hr
            rw [get_file_size_of_isDir c _ hpd] at hr
            exact absurd hr (by simp)
        · exact ih cur md t h c hc
      · rename_i mc₁ tc₁ hgd
        split at h
        · exact absurd h (by simp)
        · rename_i mdr sr hw
          simp only [Option.some.injEq, Prod.mk.injEq] at h
          obtain ⟨h1, h2⟩ := h
          subst h1
          rcases List.mem_cons.mp hc with hc | hc
          · subst hc
            constructor
            · intro mc tc hmc
              rw [hgd] at hmc
              simp only [Option.some.injEq, Except.ok.injEq,
                Prod.mk.injEq] at hmc
              rw [← hmc.1]
              exact List.sublist_append_left mc₁ mdr
            · intro r hr
              rw [get_file_size_of_isDir c _ hpd] at hr
              exact absurd hr (by simp)
          · have hfacts := ih cur mdr sr hw c hc
            constructor
            · intro mc tc hmc
              exact (hfacts.1 mc tc hmc).trans
                (List.sublist_append_right mc₁ mdr)
            · intro r hr
              exact List.mem_append_right mc₁ (hfacts.2 r hr)
    · have hpd' : p.isDir = false := by
        revert hpd; cases p.isDir <;> simp
      simp only [hpd', Bool.false_eq_true, if_false] at h
      split at h
      · exact absurd h (by simp)
      · rename_i a herr
        rcases List.mem_cons.mp hc with hc | hc
        · subst hc
          constructor
          · intro mc tc hmc
            rw [get_dir_data_of_not_isDir c _ hpd'] at hmc
            exact absurd hmc (by simp)
          · intro r hr
            rw [herr] at hr
            exact absurd hr (by simp)
        · exact ih cur md t h c hc
      · rename_i r₁ hfs
        split at h
        · exact absurd h (by simp)
        · rename_i mdr sr hw
          simp only [Option.some.injEq, Prod.mk.injEq] at h
          obtain ⟨h1, h2⟩ := h
          subst h1
          rcases List.mem_cons.mp hc with hc | hc
          · subst hc
            constructor
            · intro mc tc hmc
              rw [get_dir_data_of_not_isDir c _ hpd'] at hmc
              exact absurd hmc (by simp)
            · intro r hr
              rw [hfs] at hr
              simp only [Option.some.injEq, Except.ok.injEq] at hr
              rw [← hr]
              exact List.mem_cons_self r₁ mdr
          · have hfacts := ih cur mdr sr hw c hc
            constructor
            · intro mc tc hmc
              exact (hfacts.1 mc tc hmc).trans (List.sublist_cons_self r₁ mdr)
            · intro r hr
              exact List.mem_cons_of_mem r₁ (hfacts.2 r hr)

/-! ## Claim theorems -/

/-- C1: for every directory successfully traversed by `get_dir_data`,
the directory's own record is the final record produced, it carries the
`u64` total returned alongside the record vector, and that total is the
(wrapping `u64`) sum of the `size` fields of the records produced for
the directory's direct children — the records exactly one depth level
below the directory. Quantifying over the call depth makes the
statement apply recursively, bottom-up, to every recursive call. -/
theorem c1_dir_size_eq_children_sum (p : String) (ch : List Entry)
    (dep : Depth) (recs : List PathSizeMetadata) (total : Nat)
    (h : get_dir_data (.dir p ch) dep = some (.ok (recs, total))) :
    recs.getLast? = some ⟨p, total, dep.val⟩ ∧
    total = wsum ((recs.filter (fun r => r.depth == dep.val + 1)).map
      (fun r => r.size)) := by
  obtain ⟨inner, hmd, hinner, hsum, hlt⟩ := gdd_inv_all _ dep recs total h
  subst hmd
  constructor
  · simp [List.getLast?_concat, Entry.pathOf]
  · rw [List.filter_append]
    have hown : ([⟨(Entry.dir p ch).pathOf, total, dep.val⟩] :
        List PathSizeMetadata).filter (fun r => r.depth == dep.val + 1) = [] := by
      simp
    rw [hown, List.append_nil]
    exact hsum

/-- Witness for C1 on a concrete two-level tree: the root total 22 is
the sum of the depth-1 records (10 + 5 + 7), and the subdirectory's own
record carries its subtree total 5. -/
theorem c1_witness :
    get_dir_data
        (.dir "r" [.file "a" 10, .dir "s" [.file "b" 5], .file "c" 7])
        (.depth 0) =
      some (.ok ([⟨"a", 10, 1⟩, ⟨"b", 5, 2⟩, ⟨"s", 5, 1⟩, ⟨"c", 7, 1⟩,
        ⟨"r", 22, 0⟩], 22)) ∧
    ([⟨"a", 10, 1⟩, ⟨"b", 5, 2⟩, ⟨"s", 5, 1⟩, ⟨"c", 7, 1⟩,
        ⟨"r", 22, 0⟩] : List PathSizeMetadata).getLast? =
      some ⟨"r", 22, 0⟩ ∧
    22 = wsum ((([⟨"a", 10, 1⟩, ⟨"b", 5, 2⟩, ⟨"s", 5, 1⟩, ⟨"c", 7, 1⟩,
        ⟨"r", 22, 0⟩] : List PathSizeMetadata).filter
      (fun r => r.depth == (Depth.depth 0).val + 1)).map (fun r => r.size)) :=
  ⟨rfl, c1_dir_size_eq_children_sum "r"
    [.file "a" 10, .dir "s" [.file "b" 5], .file "c" 7] (.depth 0) _ 22 rfl⟩

/-- C6: a root path that is a regular file yields exactly one record,
at depth 0, carrying the file's byte length, for every requested
maximum depth. -/
theorem c6_single_file_root (p : String) (sz : Nat) (D : Nat) :
    get_disk_usage (.file p sz) D = some [⟨p, sz, 0⟩] := rfl

/-- C7: `get_file_size` returns a recoverable `Err` on any path that is
not a regular file (directories, unreadable directories, dead paths),
and aborts the run (`none`, the model of `panic!`) when metadata
retrieval fails on a path already confirmed to be a file. -/
theorem c7_file_size_error_policy :
    (∀ (e : Entry) (dep : Depth), e.isFile = false →
      get_file_size e dep =
        some (.error "Get file size provided with a non-file path")) ∧
    (∀ (p : String) (dep : Depth),
      get_file_size (.fileBadMeta p) dep = none) := by
  constructor
  · intro e dep h
    cases e <;> simp_all [Entry.isFile, get_file_size]
  · intro p dep
    rfl

/-- Witness for C7: a directory yields the recoverable error, a file
with failing metadata aborts. -/
theorem c7_witness :
    Entry.isFile (.dir "d" []) = false ∧
    get_file_size (.dir "d" []) .none =
      some (.error "Get file size provided with a non-file path") ∧
    get_file_size (.fileBadMeta "m") .none = none :=
  ⟨rfl, c7_file_size_error_policy.1 (.dir "d" []) .none rfl,
    c7_file_size_error_policy.2 "m" .none⟩

/-- C10: a root path that is neither a directory nor a regular file
takes the file branch of `get_disk_usage`, whose `unwrap` of the
`get_file_size` error aborts the process (`none`) — no recoverable
error is returned. -/
theorem c10_dead_root_aborts (p : String) (D : Nat) :
    get_disk_usage (.other p) D = none := rfl

/-- C2 counterexample: a directory containing one unreadable
subdirectory (readdir fails, e.g. permission denied) and one readable
file of size 5 does not yield an aggregate of 5 — the whole operation
aborts, because `read_dir_contents` reaches
`fs::read_dir(dir_path).unwrap()` inside the recursive call. -/
theorem c2_counterexample :
    get_disk_usage (.dir "r" [.badDir "s", .file "a" 5]) 0 = none ∧
    get_dir_data (.dir "r" [.badDir "s", .file "a" 5]) .none = none :=
  ⟨rfl, rfl⟩

/-- C2 amended: only a child that fails the `is_dir`/`is_file` re-check
(neither directory nor regular file at visit time) is silently skipped:
no record, no size contribution, and the traversal succeeds — a
directory with one such child and one readable file of size `n` yields
a root aggregate of exactly `n`. A subdirectory whose listing fails
(permission denied on readdir) instead aborts the whole run. -/
theorem c2_amended (r s a : String) (n : Nat) (h : n < U64) :
    get_dir_data (.dir r [.other s, .file a n]) .none =
      some (.ok ([⟨a, n, 1⟩, ⟨r, n, 0⟩], n)) ∧
    get_disk_usage (.dir r [.other s, .file a n]) 0 = some [⟨r, n, 0⟩] ∧
    get_disk_usage (.dir r [.badDir s, .file a n]) 0 = none := by
  refine ⟨?_, ?_, rfl⟩
  · rw [get_dir_data]
    simp [walk_paths, get_file_size, Entry.isDir, Depth.val,
      Nat.mod_eq_of_lt h]
  · rw [get_disk_usage]
    simp only [Entry.isDir, if_true]
    rw [get_dir_data]
    simp [walk_paths, get_file_size, Entry.isDir, Depth.val,
      Nat.mod_eq_of_lt h]

/-- Witness for C2's amended statement at `n = 5`. -/
theorem c2_amended_witness :
    (5 : Nat) < U64 ∧
    (get_dir_data (.dir "r" [.other "s", .file "a" 5]) .none =
      some (.ok ([⟨"a", 5, 1⟩, ⟨"r", 5, 0⟩], 5)) ∧
    get_disk_usage (.dir "r" [.other "s", .file "a" 5]) 0 =
      some [⟨"r", 5, 0⟩] ∧
    get_disk_usage (.dir "r" [.badDir "s", .file "a" 5]) 0 = none) :=
  ⟨by norm_num [U64], c2_amended "r" "s" "a" 5 (by norm_num [U64])⟩

/-- C5: `get_disk_usage` on a directory returns exactly the records of
the full, unpruned traversal whose depth does not exceed `D` — the walk
itself never receives the requested depth — hence the record set for
`D + 1` is a superset (sublist-wise) of the set for `D`, and `D = 0`
yields only the root record. -/
theorem c5_depth_filter (e : Entry) (D : Nat)
    (v : List PathSizeMetadata) (t : Nat)
    (h : get_dir_data e .none = some (.ok (v, t))) :
    get_disk_usage e D = some (v.filter (fun r => r.depth ≤ D)) ∧
    (v.filter (fun r => r.depth ≤ D)).Sublist
      (v.filter (fun r => r.depth ≤ D + 1)) ∧
    get_disk_usage e 0 = some [⟨e.pathOf, t, 0⟩] := by
  have hdir := isDir_of_get_dir_data_ok e .none _ h
  refine ⟨?_, ?_, ?_⟩
  · simp [get_disk_usage, hdir, h]
  · exact List.monotone_filter_right v (fun r hr => by
      simp only [decide_eq_true_eq] at hr ⊢
      omega)
  · obtain ⟨inner, hmd, hinner, hsum, hlt⟩ := gdd_inv_all e .none v t h
    simp only [get_disk_usage, hdir, if_true, h]
    subst hmd
    rw [List.filter_append]
    have h1 : inner.filter (fun r => r.depth ≤ 0) = [] :=
      List.filter_eq_nil_iff.mpr (fun r hr => by
        have := hinner r hr
        simp only [Depth.val] at this
        simp only [decide_eq_true_eq, Bool.not_eq_true]
        omega)
    rw [h1, List.nil_append]
    simp [Depth.val]

/-- Witness for C5 on a concrete tree at `D = 1`. -/
theorem c5_witness :
    get_dir_data (.dir "r" [.file "a" 10, .dir "s" [.file "b" 5]]) .none =
      some (.ok ([⟨"a", 10, 1⟩, ⟨"b", 5, 2⟩, ⟨"s", 5, 1⟩, ⟨"r", 15, 0⟩],
        15)) ∧
    (get_disk_usage (.dir "r" [.file "a" 10, .dir "s" [.file "b" 5]]) 1 =
      some (([⟨"a", 10, 1⟩, ⟨"b", 5, 2⟩, ⟨"s", 5, 1⟩,
        ⟨"r", 15, 0⟩] : List PathSizeMetadata).filter
        (fun r => r.depth ≤ 1)) ∧
    (([⟨"a", 10, 1⟩, ⟨"b", 5, 2⟩, ⟨"s", 5, 1⟩,
        ⟨"r", 15, 0⟩] : List PathSizeMetadata).filter
        (fun r => r.depth ≤ 1)).Sublist
      (([⟨"a", 10, 1⟩, ⟨"b", 5, 2⟩, ⟨"s", 5, 1⟩,
        ⟨"r", 15, 0⟩] : List PathSizeMetadata).filter
        (fun r => r.depth ≤ 1 + 1)) ∧
    get_disk_usage (.dir "r" [.file "a" 10, .dir "s" [.file "b" 5]]) 0 =
      some [⟨(Entry.dir "r" [.file "a" 10, .dir "s" [.file "b" 5]]).pathOf,
        15, 0⟩]) :=
  ⟨rfl, c5_depth_filter _ 1 _ 15 rfl⟩

/-- C8: in every record set produced by the traversal, each node
reached through a directory produces its record at exactly the parent
directory's depth plus one — a directory child's own (last) record and
a file child's record both carry depth `dep.val + 1`, and they appear
in the parent's record set; and every successful `get_disk_usage`
result contains a record for the root path itself at depth 0, whether
the root is a directory or a single file. -/
theorem c8_depth_structure :
    (∀ (p : String) (ch : List Entry) (dep : Depth)
        (recs : List PathSizeMetadata) (total : Nat),
      get_dir_data (.dir p ch) dep = some (.ok (recs, total)) →
      ∀ c ∈ ch,
        (∀ mc tc, get_dir_data c (.depth (dep.val + 1)) =
            some (.ok (mc, tc)) →
          mc.getLast? = some ⟨c.pathOf, tc, dep.val + 1⟩ ∧ mc.Sublist recs)
        ∧ (∀ r, get_file_size c (.depth (dep.val + 1)) = some (.ok r) →
            r.depth = dep.val + 1 ∧ r ∈ recs)) ∧
    (∀ (e : Entry) (D : Nat) (recs : List PathSizeMetadata),
      get_disk_usage e D = some recs →
      ∃ r ∈ recs, r.depth = 0 ∧ r.path = e.pathOf) := by
  constructor
  · intro p ch dep recs total h c hc
    rw [get_dir_data] at h
    split at h
    · exact absurd h (by simp)
    · rename_i mdW s hw
      simp only [Option.some.injEq, Except.ok.injEq, Prod.mk.injEq] at h
      obtain ⟨h1, h2⟩ := h
      subst h2
      have hfacts := walk_children_facts ch dep.val mdW s hw c hc
      constructor
      · intro mc tc hmc
        obtain ⟨inner, hmd, hinner, hsum, hlt⟩ :=
          gdd_inv_all c (.depth (dep.val + 1)) mc tc hmc
        constructor
        · rw [hmd]
          simp [List.getLast?_concat, Depth.val]
        · exact (hfacts.1 mc tc hmc).trans
            (h1 ▸ List.sublist_append_left mdW _)
      · intro r hr
        refine ⟨(get_file_size_ok c _ r hr).2, ?_⟩
        exact h1 ▸ List.mem_append_left _ (hfacts.2 r hr)
  · intro e D recs h
    cases e with
    | file p sz =>
      simp only [get_disk_usage, Entry.isDir, Bool.false_eq_true, if_false,
        get_file_size, Option.some.injEq] at h
      exact ⟨⟨p, sz, 0⟩, by simp [← h, Depth.val], rfl, rfl⟩
    | fileBadMeta p => exact absurd h (by simp [get_disk_usage, get_file_size, Entry.isDir])
    | badDir p => exact absurd h (by simp [get_disk_usage, get_dir_data, Entry.isDir])
    | other p => exact absurd h (by simp [get_disk_usage, get_file_size, Entry.isDir])
    | dir p ch =>
      simp only [get_disk_usage, Entry.isDir, if_true] at h
      split at h
      · exact absurd h (by simp)
      · exact absurd h (by simp)
      · rename_i v t hgd
        simp only [Option.some.injEq] at h
        obtain ⟨inner, hmd, hinner, hsum, hlt⟩ :=
          gdd_inv_all _ .none v t hgd
        refine ⟨⟨(Entry.dir p ch).pathOf, t, Depth.val .none⟩, ?_, rfl, rfl⟩
        rw [← h]
        refine List.mem_filter.mpr ⟨?_, by simp [Depth.val]⟩
        rw [hmd]
        exact List.mem_append_right inner (List.mem_singleton_self _)

/-- Witness for C8: the subdirectory child of a concrete root produces
its own record at depth 1 inside the root's record set, and a
file-rooted `get_disk_usage` result contains the depth-0 root record. -/
theorem c8_witness :
    (([⟨"b", 5, 2⟩, ⟨"s", 5, 1⟩] : List PathSizeMetadata).getLast? =
        some ⟨(Entry.dir "s" [.file "b" 5]).pathOf, 5,
          (Depth.depth 0).val + 1⟩ ∧
      ([⟨"b", 5, 2⟩, ⟨"s", 5, 1⟩] : List PathSizeMetadata).Sublist
        [⟨"b", 5, 2⟩, ⟨"s", 5, 1⟩, ⟨"r", 5, 0⟩]) ∧
    (∃ r ∈ [(⟨"f", 3, 0⟩ : PathSizeMetadata)],
      r.depth = 0 ∧ r.path = (Entry.file "f" 3).pathOf) :=
  ⟨(c8_depth_structure.1 "r" [.dir "s" [.file "b" 5]] (.depth 0) _ 5 rfl
      (.dir "s" [.file "b" 5]) (List.mem_singleton_self _)).1
      [⟨"b", 5, 2⟩, ⟨"s", 5, 1⟩] 5 rfl,
    c8_depth_structure.2 (.file "f" 3) 2 _ rfl⟩

/-- C9: with the sort flag set, `log_disk_usage` hands the formatter
the records in non-decreasing order of `size`, stably — for every size
value the records of that size keep the relative order in which the
walker produced them; with the flag unset the records reach the
formatter unchanged, in traversal order. -/
theorem c9_stable_sort :
    (∀ res : List PathSizeMetadata,
      sort_records res false = res ∧
      List.Sorted (fun a b => a.size ≤ b.size) (sort_records res true) ∧
      (∀ s, (sort_records res true).filter (fun r => r.size == s) =
        res.filter (fun r => r.size == s))) ∧
    (∀ (e : Entry) (D : Nat) (hr : Bool) (res : List PathSizeMetadata),
      get_disk_usage e D = some res →
      (log_disk_usage e D hr true =
        if hr then some (print_readable (sort_records res true))
        else print_bytes (sort_records res true)) ∧
      (log_disk_usage e D hr false =
        if hr then some (print_readable res) else print_bytes res)) := by
  have htrans : ∀ a b c : PathSizeMetadata,
      (decide (a.size ≤ b.size)) = true → (decide (b.size ≤ c.size)) = true →
      (decide (a.size ≤ c.size)) = true := by
    intro a b c h1 h2
    simp only [decide_eq_true_eq] at h1 h2 ⊢
    omega
  have htotal : ∀ a b : PathSizeMetadata,
      ((decide (a.size ≤ b.size)) || (decide (b.size ≤ a.size))) = true := by
    intro a b
    simp only [Bool.or_eq_true, decide_eq_true_eq]
    omega
  constructor
  · intro res
    refine ⟨rfl, ?_, ?_⟩
    · have hs := List.sorted_mergeSort htrans htotal res
      simp only [sort_records, if_true]
      exact hs.imp (fun h => by simpa using h)
    · intro s
      have hceq : (res.filter (fun r => r.size == s)).Pairwise
          (fun a b => (decide (a.size ≤ b.size)) = true) := by
        refine List.pairwise_of_forall_mem_list ?_
        intro a ha b hb
        have ha' := (List.mem_filter.mp ha).2
        have hb' := (List.mem_filter.mp hb).2
        simp only [beq_iff_eq] at ha' hb'
        simp [ha', hb']
      have hsub : (res.filter (fun r => r.size == s)).Sublist
          (res.mergeSort (fun a b => a.size ≤ b.size)) :=
        List.sublist_mergeSort htrans htotal hceq (List.filter_sublist res)
      have hself : (res.filter (fun r => r.size == s)).filter
          (fun r => r.size == s) = res.filter (fun r => r.size == s) :=
        List.filter_eq_self.mpr (fun a ha => (List.mem_filter.mp ha).2)
      have h1 : (res.filter (fun r => r.size == s)).Sublist
          ((res.mergeSort (fun a b => a.size ≤ b.size)).filter
            (fun r => r.size == s)) := by
        rw [← hself]
        exact List.Sublist.filter _ hsub
      have h2 : ((res.mergeSort (fun a b => a.size ≤ b.size)).filter
          (fun r => r.size == s)).length =
          (res.filter (fun r => r.size == s)).length :=
        ((List.mergeSort_perm res _).filter _).length_eq
      simp only [sort_records, if_true]
      exact (h1.eq_of_length h2.symm).symm
  · intro e D hr res h
    constructor <;> simp [log_disk_usage, h, sort_records]

/-- Witness for C9 on a concrete record set with a duplicated size. -/
theorem c9_witness :
    (sort_records [⟨"x", 7, 1⟩, ⟨"y", 3, 1⟩, ⟨"z", 7, 2⟩] false =
      [⟨"x", 7, 1⟩, ⟨"y", 3, 1⟩, ⟨"z", 7, 2⟩] ∧
    List.Sorted (fun a b => a.size ≤ b.size)
      (sort_records [⟨"x", 7, 1⟩, ⟨"y", 3, 1⟩, ⟨"z", 7, 2⟩] true) ∧
    (∀ s, (sort_records [⟨"x", 7, 1⟩, ⟨"y", 3, 1⟩, ⟨"z", 7, 2⟩]
        true).filter (fun r => r.size == s) =
      ([⟨"x", 7, 1⟩, ⟨"y", 3, 1⟩, ⟨"z", 7, 2⟩] :
        List PathSizeMetadata).filter (fun r => r.size == s))) ∧
    (log_disk_usage (.file "f" 3) 0 false true =
      print_bytes (sort_records [⟨"f", 3, 0⟩] true)) :=
  ⟨c9_stable_sort.1 [⟨"x", 7, 1⟩, ⟨"y", 3, 1⟩, ⟨"z", 7, 2⟩],
    by simpa using
      (c9_stable_sort.2 (.file "f" 3) 0 false [⟨"f", 3, 0⟩] rfl).1⟩

/-- The initial accumulator never exceeds a `max` fold. -/
theorem init_le_foldl_max (l : List Nat) : ∀ i : Nat, i ≤ l.foldl max i := by
  induction l with
  | nil => intro i; exact le_refl i
  | cons x xs ih =>
    intro i
    exact le_trans (le_max_left i x) (ih (max i x))

/-- Every list element is bounded by a `max` fold. -/
theorem mem_le_foldl_max (l : List Nat) :
    ∀ (i : Nat) (a : Nat), a ∈ l → a ≤ l.foldl max i := by
  induction l with
  | nil => intro i a ha; exact absurd ha (List.not_mem_nil a)
  | cons x xs ih =>
    intro i a ha
    rcases List.mem_cons.mp ha with ha | ha
    · subst ha
      exact le_trans (le_max_right i a) (init_le_foldl_max xs (max i a))
    · exact ih (max i x) a ha

/-- Unfolding of `print_bytes` on a non-empty list (the panicking
branch is unreachable). -/
theorem print_bytes_cons (r : PathSizeMetadata)
    (rest : List PathSizeMetadata) :
    print_bytes (r :: rest) = some ((r :: rest).map (fun x =>
      pad_right (toString x.size)
        (get_num_digits (((r :: rest).map (fun x => x.size)).foldl max 0))
      ++ "  " ++ x.path)) := rfl

/-- Unfolding of `claimed_print_bytes` on a non-empty list. -/
theorem claimed_print_bytes_cons (r : PathSizeMetadata)
    (rest : List PathSizeMetadata) :
    claimed_print_bytes (r :: rest) = some ((r :: rest).map (fun x =>
      pad_left (toString x.size)
        (digit_count (((r :: rest).map (fun x => x.size)).foldl max 0))
      ++ "  " ++ x.path)) := rfl

/-- C3 counterexample: on the record set with sizes 5 and 10,
`print_bytes` emits `"5  a"` — the byte counts are left-aligned
(right-padded) and the width is computed as `⌈log₁₀ 10⌉ = 1`, not the
digit count 2 — while the claim's rendering (right-aligned, width =
digit count of the maximum) would emit `" 5  a"`. -/
theorem c3_counterexample :
    print_bytes [⟨"a", 5, 0⟩, ⟨"b", 10, 0⟩] = some ["5  a", "10  b"] ∧
    claimed_print_bytes [⟨"a", 5, 0⟩, ⟨"b", 10, 0⟩] =
      some [" 5  a", "10  b"] ∧
    print_bytes [⟨"a", 5, 0⟩, ⟨"b", 10, 0⟩] ≠
      claimed_print_bytes [⟨"a", 5, 0⟩, ⟨"b", 10, 0⟩] := by
  have hfold : (([⟨"a", 5, 0⟩, ⟨"b", 10, 0⟩] :
      List PathSizeMetadata).map (fun r => r.size)).foldl max 0 = 10 := by
    decide
  have hw : get_num_digits 10 = 1 := by
    rw [get_num_digits, if_neg (by norm_num), Nat.log_of_lt (by norm_num)]
  have hd : digit_count 10 = 2 := by
    rw [digit_count, @Nat.log_eq_of_pow_le_of_lt_pow 10 1 10
      (by norm_num) (by norm_num)]
  refine ⟨?_, ?_, ?_⟩
  · rw [print_bytes_cons, hfold, hw]
    decide
  · rw [claimed_print_bytes_cons, hfold, hd]
    decide
  · rw [print_bytes_cons, claimed_print_bytes_cons, hfold, hw, hd]
    decide

/-- C3 amended: in raw-bytes mode, every non-empty record set is
rendered one record per line as the byte count left-aligned — padded
with spaces on the right — to the width `get_num_digits max`, followed
by two spaces and the path, where `max` bounds every size in the set;
the width is 1 when `max < 2` and otherwise the exact ceiling
`⌈log₁₀ max⌉`, i.e. the unique `w` with `10^(w-1) < max ≤ 10^w` — the
decimal digit count of `max` except when `max` is a power of ten
`≥ 10`, where it is one less. -/
theorem c3_amended (data : List PathSizeMetadata) (hne : data ≠ []) :
    let mx := (data.map (fun r => r.size)).foldl max 0
    let w := get_num_digits mx
    print_bytes data =
      some (data.map (fun r =>
        pad_right (toString r.size) w ++ "  " ++ r.path)) ∧
    (∀ r ∈ data, r.size ≤ mx) ∧
    (mx < 2 → w = 1) ∧
    (2 ≤ mx → 10 ^ (w - 1) < mx ∧ mx ≤ 10 ^ w) := by
  intro mx w
  obtain ⟨r0, rest0, rfl⟩ : ∃ r0 rest0, data = r0 :: rest0 := by
    cases data with
    | nil => exact absurd rfl hne
    | cons a b => exact ⟨a, b, rfl⟩
  refine ⟨print_bytes_cons r0 rest0, ?_, ?_, ?_⟩
  · intro r hr
    exact mem_le_foldl_max _ 0 r.size (List.mem_map_of_mem _ hr)
  · intro h
    show get_num_digits mx = 1
    rw [get_num_digits, if_pos h]
  · intro h
    have hx : mx - 1 ≠ 0 := by omega
    have hw : w = Nat.log 10 (mx - 1) + 1 := by
      show get_num_digits mx = _
      rw [get_num_digits, if_neg (by omega : ¬ mx < 2)]
    constructor
    · rw [hw]
      simp only [Nat.add_sub_cancel]
      have := Nat.pow_log_le_self 10 hx
      omega
    · rw [hw]
      have := Nat.lt_pow_succ_log_self (show 1 < 10 by norm_num) (mx - 1)
      simp only [Nat.succ_eq_add_one] at this
      omega

/-- Witness for C3's amended statement: max size 1033 gives width 4
and left-aligned rendering. -/
theorem c3_amended_witness :
    ([⟨"a", 5, 0⟩, ⟨"b", 1033, 0⟩] : List PathSizeMetadata) ≠ [] ∧
    (let mx := (([⟨"a", 5, 0⟩, ⟨"b", 1033, 0⟩] :
        List PathSizeMetadata).map (fun r => r.size)).foldl max 0
    let w := get_num_digits mx
    print_bytes [⟨"a", 5, 0⟩, ⟨"b", 1033, 0⟩] =
      some (([⟨"a", 5, 0⟩, ⟨"b", 1033, 0⟩] :
        List PathSizeMetadata).map (fun r =>
        pad_right (toString r.size) w ++ "  " ++ r.path)) ∧
    (∀ r ∈ ([⟨"a", 5, 0⟩, ⟨"b", 1033, 0⟩] : List PathSizeMetadata),
      r.size ≤ mx) ∧
    (mx < 2 → w = 1) ∧
    (2 ≤ mx → 10 ^ (w - 1) < mx ∧ mx ≤ 10 ^ w)) :=
  ⟨by simp, c3_amended [⟨"a", 5, 0⟩, ⟨"b", 1033, 0⟩] (by simp)⟩

/-- The loop count of `print_readable` is exactly the 1024-adic
magnitude: after `trunc_count n` divisions the value is below 1024, and
a nonzero count means `n` reached at least `1024 ^ trunc_count n`. -/
theorem trunc_count_spec (n : Nat) :
    n < 1024 ^ (trunc_count n + 1) ∧
    (trunc_count n ≠ 0 → 1024 ^ trunc_count n ≤ n) := by
  induction n using trunc_count.induct with
  | case1 n h =>
    rw [trunc_count, if_pos h]
    exact ⟨by simpa using h, fun h0 => absurd rfl h0⟩
  | case2 n h ih =>
    have hrw : trunc_count n = trunc_count (n / 1024) + 1 := by
      rw [trunc_count, if_neg h]
    rw [hrw]
    constructor
    · have h1 := ih.1
      rw [Nat.div_lt_iff_lt_mul (by norm_num : 0 < 1024)] at h1
      calc n < 1024 ^ (trunc_count (n / 1024) + 1) * 1024 := h1
        _ = 1024 ^ (trunc_count (n / 1024) + 1 + 1) := by
          ring
    · intro _
      by_cases hk : trunc_count (n / 1024) = 0
      · rw [hk]
        simpa using Nat.le_of_not_lt h
      · have h2 := ih.2 hk
        rw [Nat.le_div_iff_mul_le (by norm_num : 0 < 1024)] at h2
        calc 1024 ^ (trunc_count (n / 1024) + 1)
            = 1024 ^ trunc_count (n / 1024) * 1024 := by rw [Nat.pow_succ]
          _ ≤ n := h2

/-- Unfolding of the numeric-plus-unit renderer. -/
theorem readable_size_str_eq (n : Nat) :
    readable_size_str n =
      format_scaled ((n : ℚ) / 1024 ^ trunc_count n)
        (if (n : ℚ) / 1024 ^ trunc_count n < 199 / 20 then 1 else 0) ++
      String.singleton (units_char (trunc_count n)) := rfl

/-- One-decimal branch of `format_scaled`. -/
theorem format_scaled_one (q : ℚ) (m : Nat)
    (h : round_half_even (q * 10) = m) :
    format_scaled q 1 = toString (m / 10) ++ "." ++ toString (m % 10) := by
  rw [format_scaled]
  simp [h]

/-- Zero-decimal branch of `format_scaled`. -/
theorem format_scaled_zero (q : ℚ) (m : Nat)
    (h : round_half_even q = m) : format_scaled q 0 = toString m := by
  rw [format_scaled]
  simp [h]

/-- C4 counterexample: a size of 0 scales to 0, which is below 9.95 and
therefore rendered with one decimal place — `0.0B`, not the claimed
`0B`. -/
theorem c4_counterexample :
    readable_size_str 0 ≠ "0B" ∧ readable_size_str 0 = "0.0B" := by
  have h : readable_size_str 0 = "0.0B" := by
    have hk : trunc_count 0 = 0 := by simp [trunc_count]
    rw [readable_size_str, hk]
    norm_num
    rw [format_scaled_one 0 0 (by norm_num [round_half_even])]
    decide
  exact ⟨by rw [h]; decide, h⟩

/-- C4 amended: for every record the size is divided by 1024 exactly
while it remains at least 1024 (`trunc_count` bounds), rendered with
the unit selected by the division count (`B, K, M, G`, placeholder `?`
beyond `G`), with one decimal place exactly when the scaled value is
below 9.95 and zero decimals otherwise; in particular 0 renders as
`0.0B` (one decimal, since 0 < 9.95), 1023 as `1023B`, 1024 as `1.0K`,
1048576 as `1.0M`, and 10240 as `10K`. The bound `n < 2^53` marks the
range on which the exact-rational model provably coincides with the
source's `f64` arithmetic. -/
theorem c4_amended :
    (∀ n : Nat, n < 2 ^ 53 →
      (n < 1024 ^ (trunc_count n + 1) ∧
        (trunc_count n ≠ 0 → 1024 ^ trunc_count n ≤ n)) ∧
      ((n : ℚ) / 1024 ^ trunc_count n < 199 / 20 →
        ∃ a b : Nat, b < 10 ∧
          readable_size_str n = toString a ++ "." ++ toString b ++
            String.singleton (units_char (trunc_count n))) ∧
      (199 / 20 ≤ (n : ℚ) / 1024 ^ trunc_count n →
        ∃ m : Nat, readable_size_str n = toString m ++
          String.singleton (units_char (trunc_count n)))) ∧
    readable_size_str 0 = "0.0B" ∧
    readable_size_str 1023 = "1023B" ∧
    readable_size_str 1024 = "1.0K" ∧
    readable_size_str 1048576 = "1.0M" ∧
    readable_size_str 10240 = "10K" ∧
    units_char 0 = 'B' ∧ units_char 1 = 'K' ∧ units_char 2 = 'M' ∧
    units_char 3 = 'G' ∧ units_char 4 = '?' := by
  refine ⟨?_, ?_, ?_, ?_, ?_, ?_, rfl, rfl, rfl, rfl, rfl⟩
  · intro n _
    refine ⟨trunc_count_spec n, ?_, ?_⟩
    · intro hlt
      refine ⟨round_half_even ((n : ℚ) / 1024 ^ trunc_count n * 10) / 10,
        round_half_even ((n : ℚ) / 1024 ^ trunc_count n * 10) % 10,
        Nat.mod_lt _ (by norm_num), ?_⟩
      rw [readable_size_str_eq, if_pos hlt, format_scaled_one _ _ rfl]
    · intro hge
      refine ⟨round_half_even ((n : ℚ) / 1024 ^ trunc_count n), ?_⟩
      rw [readable_size_str_eq, if_neg (not_lt.mpr hge),
        format_scaled_zero _ _ rfl]
  · have hk : trunc_count 0 = 0 := by simp [trunc_count]
    rw [readable_size_str, hk]
    norm_num
    rw [format_scaled_one 0 0 (by norm_num [round_half_even])]
    decide
  · have hk : trunc_count 1023 = 0 := by simp [trunc_count]
    rw [readable_size_str, hk]
    norm_num
    rw [format_scaled_zero 1023 1023
      (by norm_num [round_half_even]; decide)]
    decide
  · have hk : trunc_count 1024 = 1 := by simp [trunc_count]
    rw [readable_size_str, hk]
    norm_num
    rw [format_scaled_one 1 10 (by norm_num [round_half_even]; decide)]
    decide
  · have hk : trunc_count 1048576 = 2 := by simp [trunc_count]
    rw [readable_size_str, hk]
    norm_num
    rw [format_scaled_one 1 10 (by norm_num [round_half_even]; decide)]
    decide
  · have hk : trunc_count 10240 = 1 := by simp [trunc_count]
    rw [readable_size_str, hk]
    norm_num
    rw [format_scaled_zero 10 10 (by norm_num [round_half_even]; decide)]
    decide

/-- Witness for C4's amended statement at `n = 10240`: scaled value 10
is at least 9.95, so zero decimals. -/
theorem c4_witness :
    (10240 : Nat) < 2 ^ 53 ∧
    (∃ m : Nat, readable_size_str 10240 = toString m ++
      String.singleton (units_char (trunc_count 10240))) := by
  refine ⟨by norm_num, ?_⟩
  refine ((c4_amended.1 10240 (by norm_num)).2.2 ?_)
  have hk : trunc_count 10240 = 1 := by simp [trunc_count]
  rw [hk]
  norm_num
